import Mathlib

/-!
# Verification of the vmwareify format-preserving OVF edit engine

A shallow embedding of the line-oriented XML edit engine:

* `internal/xmlutil/xml.go`: `IsStartElement`, `IsEndElement`, `lineIndentInfo`,
  `FindObject`, `ValidateFormatting`, the `RawObject` indentation accessors;
* `ovf/mangle.go`: `EditRawOvf`, `processNextToken`, `editSystem`, `editItem`,
  `DeleteHardwareItemsMatchingFunc`, `ReplaceHardwareItemFunc`,
  `ModifyHardwareItemsOfResourceTypeFunc`, `SetVirtualSystemTypeFunc`;
* `ovf/ovf.go`: the `System` and `Item` records and their namespace-qualified
  marshalling shadows (`marshableSystem`, `marshableItem`).

Documents are modelled as the line lists produced by Go's `bufio.ScanLines`
(split on LF, one trailing CR stripped per line).  Go's `encoding/xml` raw
tokenizer is modelled only as far as the engine exercises it: tags, text,
processing instructions and comments are recognized; XML name-character
validation, entity decoding inside character data and single-quoted attribute
values are not modelled (none of the documents handled by the engine use them).
All recursions are structural or fueled so every definition evaluates inside
the kernel.
-/

namespace Vmwareify

/-- One raw token of Go's `encoding/xml` decoder, as produced by `RawToken`.
A self-closing tag is emitted as a start token followed by an end token,
mirroring Go.  `bad` stands for a decoder syntax error. -/
inductive Tok where
  | stag (name : String)
  | etag (name : String)
  | txt (s : String)
  | misc
  | bad
deriving DecidableEq

/-- Characters that terminate an XML tag name inside a tag. -/
def nameEndChar (c : Char) : Bool :=
  c = ' ' || c = '\t' || c = '/' || c = '>' || c = '\r' || c = '\n'

/-- Scan to the closing `>` of a tag, honoring double-quoted attribute values.
Returns the characters inside the tag and the rest of the input, or `none`
when the input ends before `>` (Go: syntax error). -/
def scanTag : Bool → List Char → Option (List Char × List Char)
  | _, [] => none
  | true, c :: cs =>
    match scanTag (c ≠ '"') cs with
    | none => none
    | some (a, r) => some (c :: a, r)
  | false, c :: cs =>
    if c = '>' then some ([], cs)
    else
      match scanTag (c = '"') cs with
      | none => none
      | some (a, r) => some (c :: a, r)

theorem scanTag_length {q : Bool} {l a r : List Char}
    (h : scanTag q l = some (a, r)) : r.length < l.length := by
  induction l generalizing q a r with
  | nil => simp [scanTag] at h
  | cons c cs ih =>
    cases q with
    | true =>
      simp only [scanTag] at h
      cases hrec : scanTag (c ≠ '"') cs with
      | none => rw [hrec] at h; simp at h
      | some pr =>
        rw [hrec] at h
        obtain ⟨a', r'⟩ := pr
        simp at h
        obtain ⟨-, hr⟩ := h
        subst hr
        exact Nat.lt_succ_of_lt (ih hrec)
    | false =>
      simp only [scanTag] at h
      by_cases hgt : c = '>'
      · simp [hgt] at h
        obtain ⟨-, hr⟩ := h
        subst hr
        exact Nat.lt_succ_self _
      · simp only [hgt, if_false] at h
        cases hrec : scanTag (c = '"') cs with
        | none => rw [hrec] at h; simp at h
        | some pr =>
          rw [hrec] at h
          obtain ⟨a', r'⟩ := pr
          simp at h
          obtain ⟨-, hr⟩ := h
          subst hr
          exact Nat.lt_succ_of_lt (ih hrec)

/-- Fueled tokenizer over a character list.  Each step consumes at least one
character, so fuel equal to the input length is always sufficient
(`tokenize` below supplies it). -/
def tokenizeF : Nat → List Char → List Tok
  | 0, _ => []
  | _ + 1, [] => []
  | fuel + 1, '<' :: cs =>
    match cs with
    | '/' :: cs' =>
      match scanTag false cs' with
      | none => [.bad]
      | some (inside, rest) =>
        let name := inside.takeWhile (fun c => ¬ nameEndChar c)
        if name.isEmpty then .bad :: tokenizeF fuel rest
        else .etag (String.mk name) :: tokenizeF fuel rest
    | '?' :: cs' =>
      match scanTag false cs' with
      | none => [.bad]
      | some (_, rest) => .misc :: tokenizeF fuel rest
    | '!' :: cs' =>
      match scanTag false cs' with
      | none => [.bad]
      | some (_, rest) => .misc :: tokenizeF fuel rest
    | cs' =>
      match scanTag false cs' with
      | none => [.bad]
      | some (inside, rest) =>
        let name := inside.takeWhile (fun c => ¬ nameEndChar c)
        if name.isEmpty then .bad :: tokenizeF fuel rest
        else if inside.getLast? = some '/' then
          .stag (String.mk name) :: .etag (String.mk name) :: tokenizeF fuel rest
        else .stag (String.mk name) :: tokenizeF fuel rest
  | fuel + 1, c :: cs =>
    .txt (String.mk (c :: cs.takeWhile (· ≠ '<'))) :: tokenizeF fuel (cs.dropWhile (· ≠ '<'))

/-- Tokenize a string (Go `encoding/xml` raw token stream). -/
def tokenize (s : String) : List Tok :=
  tokenizeF s.data.length s.data

/-- The unqualified (local) part of a possibly prefix-qualified XML name:
everything after the first colon (Go `encoding/xml` name translation). -/
def localName (s : String) : String :=
  if s.data.contains ':' then String.mk ((s.data.dropWhile (· ≠ ':')).drop 1) else s

/-- An ASCII whitespace character (the whitespace Go's `TrimSpace` strips in
the engine's documents). -/
def isSpaceChar (c : Char) : Bool :=
  c = ' ' || c = '\t' || c = '\n' || c = '\r'

/-- `bytes.TrimSpace` over the characters of a line. -/
def trimChars (l : List Char) : List Char :=
  ((l.dropWhile isSpaceChar).reverse.dropWhile isSpaceChar).reverse

/-- The first raw token of a trimmed line (`xml.Decoder.RawToken` reads one
token). -/
def firstTok (line : String) : Option Tok :=
  (tokenizeF (trimChars line.data).length (trimChars line.data)).head?

/-- `xmlutil.IsStartElement`: the line's first raw token after trimming is a
start element; returns its name as written. -/
def isStartElement (line : String) : Option String :=
  match firstTok line with
  | some (.stag n) => some n
  | _ => none

/-- `xmlutil.IsEndElement`: the line's first raw token after trimming is an
end element; returns its name as written. -/
def isEndElement (line : String) : Option String :=
  match firstTok line with
  | some (.etag n) => some n
  | _ => none

/-- `xmlutil.lineIndentInfo`: the line's first character and the length of the
leading run of that character; an empty line reports a space and zero. -/
def lineIndentInfo (line : String) : Char × Nat :=
  match line.data with
  | [] => (' ', 0)
  | c :: _ => (c, (line.data.takeWhile (· = c)).length)

/-- `strings.Repeat (string c) n`. -/
def strRep (c : Char) (n : Nat) : String :=
  String.mk (List.replicate n c)

/-- Walk the token stream of one element whose open tags are on `stack`,
returning `true` iff the element closes properly before the stream ends
(Go `xml.Unmarshal` skipping an element with `Token`-level checking). -/
def skipElement : List String → List Tok → Bool
  | _, [] => false
  | s :: stack, .etag n :: rest =>
    if n = s then
      match stack with
      | [] => true
      | _ :: _ => skipElement stack rest
    else false
  | [], .etag _ :: _ => false
  | stack, .stag n :: rest => skipElement (n :: stack) rest
  | stack, .txt _ :: rest => skipElement stack rest
  | stack, .misc :: rest => skipElement stack rest
  | _, .bad :: _ => false

/-- Skip leading non-start tokens and check the first element is properly
closed; `false` when no start element exists or a token is malformed. -/
def balancedFirstElement : List Tok → Bool
  | [] => false
  | .stag n :: rest => skipElement [n] rest
  | .bad :: _ => false
  | _ :: rest => balancedFirstElement rest

/-- `xmlutil.ValidateFormatting`: `xml.Unmarshal(raw, &struct{}{})` succeeds,
i.e. the document's first element parses and is properly closed (tokens after
the first element are not read by `Unmarshal` and are ignored). -/
def validate (s : String) : Bool :=
  balancedFirstElement (tokenize s)

/-- The `ovf.System` record (`ovf/ovf.go`). -/
structure System where
  elementName : String := ""
  instanceId : String := ""
  virtualSystemIdentifier : String := ""
  virtualSystemType : String := ""
deriving DecidableEq

/-- The `ovf.Item` record (`ovf/ovf.go`). -/
structure Item where
  address : String := ""
  addressOnParent : String := ""
  allocationUnits : String := ""
  automaticAllocation : Bool := false
  caption : String := ""
  description : String := ""
  elementName : String := ""
  instanceID : String := ""
  parent : String := ""
  resourceSubType : String := ""
  resourceType : String := ""
  virtualQuantity : String := ""
deriving DecidableEq

def defaultItem : Item := {}

def defaultSystem : System := {}

/-- Go `strconv.ParseBool`. -/
def parseBool : String → Option Bool
  | "1" | "t" | "T" | "true" | "TRUE" | "True" => some true
  | "0" | "f" | "F" | "false" | "FALSE" | "False" => some false
  | _ => none

/-- Collect the character data directly inside the current element (whose
start tag was just consumed), skipping nested elements, and return the tokens
after its end tag.  Fueled; fuel equal to the token count is sufficient. -/
def collectElemF : Nat → Nat → String → List Tok → Option (String × List Tok)
  | 0, _, _, _ => none
  | _ + 1, _, _, [] => none
  | fuel + 1, d, acc, .stag _ :: rest => collectElemF fuel (d + 1) acc rest
  | fuel + 1, d, acc, .etag _ :: rest =>
    match d with
    | 0 => some (acc, rest)
    | d' + 1 => collectElemF fuel d' acc rest
  | fuel + 1, d, acc, .txt t :: rest =>
    collectElemF fuel d (if d = 0 then acc ++ t else acc) rest
  | fuel + 1, d, acc, .misc :: rest => collectElemF fuel d acc rest
  | _ + 1, _, _, .bad :: _ => none

/-- The depth-one children of the current element as `(local name, text)`
pairs, in document order; fueled.  Mirrors Go `xml.Unmarshal` field matching,
which matches struct fields on the element's local name. -/
def childListF : Nat → List Tok → Option (List (String × String))
  | 0, _ => none
  | _ + 1, [] => none
  | _ + 1, .etag _ :: _ => some []
  | fuel + 1, .stag n :: rest =>
    match collectElemF rest.length 0 "" rest with
    | none => none
    | some (t, rest') =>
      match childListF fuel rest' with
      | none => none
      | some tail => some ((localName n, t) :: tail)
  | fuel + 1, .txt _ :: rest => childListF fuel rest
  | fuel + 1, .misc :: rest => childListF fuel rest
  | _ + 1, .bad :: _ => none

def Tok.isStag : Tok → Bool
  | .stag _ => true
  | _ => false

/-- Assign one decoded child to an `Item` field; unknown children are ignored
and a malformed boolean fails (Go `strconv.ParseBool` error). -/
def setItemField (i : Item) : String × String → Option Item
  | ("Address", v) => some { i with address := v }
  | ("AddressOnParent", v) => some { i with addressOnParent := v }
  | ("AllocationUnits", v) => some { i with allocationUnits := v }
  | ("AutomaticAllocation", v) =>
    (parseBool v).map fun b => { i with automaticAllocation := b }
  | ("Caption", v) => some { i with caption := v }
  | ("Description", v) => some { i with description := v }
  | ("ElementName", v) => some { i with elementName := v }
  | ("InstanceID", v) => some { i with instanceID := v }
  | ("Parent", v) => some { i with parent := v }
  | ("ResourceSubType", v) => some { i with resourceSubType := v }
  | ("ResourceType", v) => some { i with resourceType := v }
  | ("VirtualQuantity", v) => some { i with virtualQuantity := v }
  | (_, _) => some i

def setSystemField (s : System) : String × String → Option System
  | ("ElementName", v) => some { s with elementName := v }
  | ("InstanceID", v) => some { s with instanceId := v }
  | ("VirtualSystemIdentifier", v) => some { s with virtualSystemIdentifier := v }
  | ("VirtualSystemType", v) => some { s with virtualSystemType := v }
  | (_, _) => some s

/-- `xml.Unmarshal` of a captured span into `ovf.Item`: the first start
element must have local name `Item` (the record's `XMLName` tag); its
depth-one children populate the fields. -/
def decodeItem (s : String) : Option Item :=
  match (tokenize s).dropWhile (fun t => ¬ t.isStag) with
  | .stag n :: rest =>
    if localName n = "Item" then
      match childListF rest.length rest with
      | none => none
      | some fields => fields.foldlM setItemField defaultItem
    else none
  | _ => none

/-- `xml.Unmarshal` of a captured span into `ovf.System`. -/
def decodeSystem (s : String) : Option System :=
  match (tokenize s).dropWhile (fun t => ¬ t.isStag) with
  | .stag n :: rest =>
    if localName n = "System" then
      match childListF rest.length rest with
      | none => none
      | some fields => fields.foldlM setSystemField defaultSystem
    else none
  | _ => none

/-- Go `xml.EscapeText` on one character. -/
def escapeChar (c : Char) : String :=
  if c = '<' then "&lt;"
  else if c = '>' then "&gt;"
  else if c = '&' then "&amp;"
  else if c = Char.ofNat 39 then "&#39;"
  else if c = '"' then "&#34;"
  else if c = '\n' then "&#xA;"
  else if c = '\r' then "&#xD;"
  else if c = '\t' then "&#x9;"
  else String.singleton c

def escape (s : String) : String :=
  String.join (s.data.map escapeChar)

/-- One marshalled child element line, e.g. `<rasd:Caption>x</rasd:Caption>`. -/
def elemLine (tag v : String) : String :=
  "<" ++ tag ++ ">" ++ escape v ++ "</" ++ tag ++ ">"

/-- A child line that is omitted when the value is empty (`omitempty`). -/
def optField (tag v : String) : List String :=
  if v = "" then [] else [elemLine tag v]

/-- The child lines `xml.MarshalIndent` emits for `marshableItem`
(`ovf/ovf.go`): field order and `omitempty` tags as declared there. -/
def itemFieldLines (i : Item) : List String :=
  optField "rasd:Address" i.address ++
  optField "rasd:AddressOnParent" i.addressOnParent ++
  optField "rasd:AllocationUnits" i.allocationUnits ++
  (if i.automaticAllocation then [elemLine "rasd:AutomaticAllocation" "true"] else []) ++
  [elemLine "rasd:Caption" i.caption,
   elemLine "rasd:Description" i.description,
   elemLine "rasd:ElementName" i.elementName,
   elemLine "rasd:InstanceID" i.instanceID] ++
  optField "rasd:Parent" i.parent ++
  optField "rasd:ResourceSubType" i.resourceSubType ++
  [elemLine "rasd:ResourceType" i.resourceType] ++
  optField "rasd:VirtualQuantity" i.virtualQuantity

/-- The lines of `xml.MarshalIndent(item.marshableFriendly(), pre, ind)`:
the opening and closing lines carry `pre`, each depth-one child line carries
`pre ++ ind`. -/
def marshalItemLines (i : Item) (pre ind : String) : List String :=
  (pre ++ "<Item>") ::
    ((itemFieldLines i).map (fun l => pre ++ ind ++ l) ++ [pre ++ "</Item>"])

/-- Join with a separator (`String.intercalate` over the given lines). -/
def joinSep (sep : String) : List String → String
  | [] => ""
  | [x] => x
  | x :: xs => x ++ sep ++ joinSep sep xs

def marshalItem (i : Item) (pre ind : String) : String :=
  joinSep "\n" (marshalItemLines i pre ind)

/-- The child lines `xml.MarshalIndent` emits for `marshableSystem`
(`ovf/ovf.go`): all four fields, no `omitempty`. -/
def systemFieldLines (s : System) : List String :=
  [elemLine "vssd:ElementName" s.elementName,
   elemLine "vssd:InstanceID" s.instanceId,
   elemLine "vssd:VirtualSystemIdentifier" s.virtualSystemIdentifier,
   elemLine "vssd:VirtualSystemType" s.virtualSystemType]

def marshalSystemLines (s : System) (pre ind : String) : List String :=
  (pre ++ "<System>") ::
    ((systemFieldLines s).map (fun l => pre ++ ind ++ l) ++ [pre ++ "</System>"])

def marshalSystem (s : System) (pre ind : String) : String :=
  joinSep "\n" (marshalSystemLines s pre ind)

/-- `xmlutil.RawObject` (`defaultRawObject`): the captured span and its
indentation facts. -/
structure RawObject where
  data : String
  initialIndentCount : Nat
  bodyIndentCount : Nat
  indentChar : Char
deriving DecidableEq

/-- `RawObject.StartAndEndLinePrefix`. -/
def RawObject.startEndIndent (o : RawObject) : String :=
  strRep o.indentChar o.initialIndentCount

/-- `RawObject.RelativeBodyPrefix`: empty when the body is indented less than
the opening line, otherwise the difference. -/
def RawObject.relativeBodyIndent (o : RawObject) : String :=
  if o.bodyIndentCount < o.initialIndentCount then ""
  else strRep o.indentChar (o.bodyIndentCount - o.initialIndentCount)

/-- Is `line` an end element whose local name is `tgt`
(`FindObject`'s stop test)? -/
def isMatchingEnd (tgt line : String) : Bool :=
  match isEndElement line with
  | some n => localName n = tgt
  | none => false

/-- The scan loop of `xmlutil.FindObject`: consume lines until (and
including) the first whose first token is a matching end element.  Returns
the consumed lines, the remaining lines, and whether a match was found
before the input ended. -/
def findScan (tgt : String) : List String → List String × List String × Bool
  | [] => ([], [], false)
  | l :: ls =>
    if isMatchingEnd tgt l then ([l], ls, true)
    else
      let r := findScan tgt ls
      (l :: r.1, r.2.1, r.2.2)

/-- `xmlutil.FindObject` without its final validation step: capture the span
starting at `firstLine`, record the opening line's indent run and (from the
first subsequent line) the body indent run, join consecutive lines with
`eol`. -/
def findObjectCapture (eol tgt firstLine : String) (rest : List String) :
    RawObject × List String × Bool :=
  let ind := lineIndentInfo firstLine
  let r := findScan tgt rest
  let body := match r.1 with
    | [] => 0
    | c :: _ => (lineIndentInfo c).2
  (⟨r.1.foldl (fun acc l => acc ++ eol ++ l) firstLine, ind.2, body, ind.1⟩,
    r.2.1, r.2.2)

inductive EditErr where
  | malformed
  | decodeFailed
  | unknownAction
deriving DecidableEq

deriving instance DecidableEq for Except

/-- `xmlutil.FindObject`: capture, then validate the captured bytes
(the scanner itself reports no error on plain end of input). -/
def findObject (eol tgt firstLine : String) (rest : List String) :
    Except EditErr (RawObject × List String) :=
  let r := findObjectCapture eol tgt firstLine rest
  if validate r.1.data then .ok (r.1, r.2.1) else .error .malformed

/-- `ovf.EditAction` is a string type in the source; proposal functions may
therefore produce arbitrary strings. -/
abbrev EditAction := String

def noOpAction : EditAction := "no_op"

def deleteAction : EditAction := "delete"

def replaceAction : EditAction := "replace"

/-- `ovf.HardwareItemResult`. -/
structure HardwareItemResult where
  editAction : EditAction
  newItem : Item

/-- `ovf.SystemResult`. -/
structure SystemResult where
  editAction : EditAction
  newSystem : System

/-- An `ovf.OnHardwareItemFunc`: a Go closure over mutable captured state,
modelled as a step function over an explicit integer state (the only state
the library's closures capture is the integer `limit`).  Pure proposals
ignore and preserve the state. -/
structure ItemProp where
  step : Item → Int → HardwareItemResult × Int
  state : Int

/-- An `ovf.OnSystemFunc`, modelled like `ItemProp`. -/
structure SysProp where
  step : System → Int → SystemResult × Int
  state : Int

/-- `ovf.deleteHardwareItemsMatchingFunc`: delete when the element name has
the given leading string. -/
def deleteMatchingResult (pre : String) (i : Item) : HardwareItemResult :=
  if pre.data.isPrefixOf i.elementName.data then ⟨deleteAction, defaultItem⟩
  else ⟨noOpAction, defaultItem⟩

/-- `ovf.DeleteHardwareItemsMatchingFunc`: the returned closure captures
`limit` mutably; when it reaches zero the proposal keeps everything, and it
is decremented each time the inner function answers Delete. -/
def deleteHardwareItemsMatchingProp (pre : String) (limit : Int) : ItemProp where
  step i s :=
    if s = 0 then (⟨noOpAction, defaultItem⟩, s)
    else
      let r := deleteMatchingResult pre i
      (r, if r.editAction = deleteAction then s - 1 else s)
  state := limit

/-- `ovf.ReplaceHardwareItemFunc`. -/
def replaceHardwareItemProp (elementName : String) (item : Item) : ItemProp where
  step i s :=
    (if i.elementName = elementName then ⟨replaceAction, item⟩
     else ⟨noOpAction, defaultItem⟩, s)
  state := 0

/-- `ovf.ModifyHardwareItemsOfResourceTypeFunc`. -/
def modifyResourceTypeProp (resourceType : String) (f : Item → Item) : ItemProp where
  step i s :=
    (if i.resourceType = resourceType then ⟨replaceAction, f i⟩
     else ⟨noOpAction, defaultItem⟩, s)
  state := 0

/-- `ovf.SetVirtualSystemTypeFunc`. -/
def setVirtualSystemTypeProp (v : String) : SysProp where
  step sys s := (⟨replaceAction, { sys with virtualSystemType := v }⟩, s)
  state := 0

/-- The proposal loop of `ovf.editItem` (`mangle.go` lines 527-545):
`NoOp` (and any unrecognized action string) falls through to the next
proposal, the first `Delete` or `Replace` returns immediately, and an
exhausted list returns the captured bytes with `NoOp`.  Each proposal's
state is updated in place when it is invoked; proposals after the deciding
one are returned untouched. -/
def evalItemProps (raw : RawObject) (item : Item) :
    List ItemProp → String × EditAction × List ItemProp
  | [] => (raw.data, noOpAction, [])
  | p :: ps =>
    let r := p.step item p.state
    let p' : ItemProp := ⟨p.step, r.2⟩
    if r.1.editAction = deleteAction then ("", deleteAction, p' :: ps)
    else if r.1.editAction = replaceAction then
      (marshalItem r.1.newItem raw.startEndIndent raw.relativeBodyIndent,
        replaceAction, p' :: ps)
    else
      let t := evalItemProps raw item ps
      (t.1, t.2.1, p' :: t.2.2)

/-- The proposal loop of `ovf.editSystem` (`mangle.go` lines 498-514). -/
def evalSysProps (raw : RawObject) (sys : System) :
    List SysProp → String × EditAction × List SysProp
  | [] => (raw.data, noOpAction, [])
  | p :: ps =>
    let r := p.step sys p.state
    let p' : SysProp := ⟨p.step, r.2⟩
    if r.1.editAction = deleteAction then ("", deleteAction, p' :: ps)
    else if r.1.editAction = replaceAction then
      (marshalSystem r.1.newSystem raw.startEndIndent raw.relativeBodyIndent,
        replaceAction, p' :: ps)
    else
      let t := evalSysProps raw sys ps
      (t.1, t.2.1, p' :: t.2.2)

/-- `ovf.editItem`: find and deserialize the object, then run the proposal
loop.  Returns the bytes to write, the action, the updated proposals and the
lines remaining after the consumed span. -/
def editItem (eol tgt firstLine : String) (rest : List String)
    (props : List ItemProp) :
    Except EditErr (String × EditAction × List ItemProp × List String) :=
  match findObject eol tgt firstLine rest with
  | .error e => .error e
  | .ok (raw, rem) =>
    match decodeItem raw.data with
    | none => .error .decodeFailed
    | some item =>
      let t := evalItemProps raw item props
      .ok (t.1, t.2.1, t.2.2, rem)

/-- `ovf.editSystem`. -/
def editSystem (eol tgt firstLine : String) (rest : List String)
    (props : List SysProp) :
    Except EditErr (String × EditAction × List SysProp × List String) :=
  match findObject eol tgt firstLine rest with
  | .error e => .error e
  | .ok (raw, rem) =>
    match decodeSystem raw.data with
    | none => .error .decodeFailed
    | some sys =>
      let t := evalSysProps raw sys props
      .ok (t.1, t.2.1, t.2.2, rem)

/-- `ovf.EditOptions`. -/
structure EditOptions where
  onSystem : List SysProp
  onHardwareItems : List ItemProp

/-- Modelled from the spec: the element-kind tag names `systemFieldName` and
`itemFieldName` used by `processNextToken` are declared in a source file not
present under `src/`; §3 of the spec (matching is by the element's
unqualified tag name, kinds `SystemDescriptor` and `HardwareItem`) together
with the exported constants `VirtualHardwareSystemName = "System"` and
`VirtualHardwareItemName = "Item"` in `ovf/ovf.go` fix their values. -/
def systemFieldName : String := "System"

/-- Modelled from the spec: see `systemFieldName`. -/
def itemFieldName : String := "Item"

/-- The scan loop of `ovf.EditRawOvf` with `processNextToken` inlined,
fueled by the number of lines (each step consumes at least the current
line).  A line that is not a start element, or that opens an element kind
with no registered proposals, is copied verbatim followed by `'\n'` (the
source hardcodes the terminator).  A matched line hands control to
`editSystem`/`editItem`; their `Delete` omits the span and its terminator,
`NoOp` re-emits the captured bytes, `Replace` emits the serialized
replacement, and any other action string is the unknown-action error. -/
def runLoopF : Nat → EditOptions → List String → Except EditErr String
  | 0, _, _ => .ok ""
  | _ + 1, _, [] => .ok ""
  | fuel + 1, opts, line :: rest =>
    match isStartElement line with
    | none =>
      match runLoopF fuel opts rest with
      | .error e => .error e
      | .ok out => .ok (line ++ "\n" ++ out)
    | some n =>
      if localName n = systemFieldName ∧ opts.onSystem.isEmpty = false then
        match editSystem "\n" (localName n) line rest opts.onSystem with
        | .error e => .error e
        | .ok (result, a, ps', rem) =>
          let opts' : EditOptions := { opts with onSystem := ps' }
          if a = noOpAction then
            match runLoopF fuel opts' rem with
            | .error e => .error e
            | .ok out =>
              .ok ((if result.length > 0 then result else line) ++ "\n" ++ out)
          else if a = deleteAction then runLoopF fuel opts' rem
          else if a = replaceAction then
            match runLoopF fuel opts' rem with
            | .error e => .error e
            | .ok out => .ok (result ++ "\n" ++ out)
          else .error .unknownAction
      else if localName n = itemFieldName ∧ opts.onHardwareItems.isEmpty = false then
        match editItem "\n" (localName n) line rest opts.onHardwareItems with
        | .error e => .error e
        | .ok (result, a, ps', rem) =>
          let opts' : EditOptions := { opts with onHardwareItems := ps' }
          if a = noOpAction then
            match runLoopF fuel opts' rem with
            | .error e => .error e
            | .ok out =>
              .ok ((if result.length > 0 then result else line) ++ "\n" ++ out)
          else if a = deleteAction then runLoopF fuel opts' rem
          else if a = replaceAction then
            match runLoopF fuel opts' rem with
            | .error e => .error e
            | .ok out => .ok (result ++ "\n" ++ out)
          else .error .unknownAction
      else
        match runLoopF fuel opts rest with
        | .error e => .error e
        | .ok out => .ok (line ++ "\n" ++ out)

/-- The scan loop of `ovf.EditRawOvf` over the document's lines. -/
def runLoop (opts : EditOptions) (lines : List String) : Except EditErr String :=
  runLoopF lines.length opts lines

/-- Split a character list at every `'\n'`. -/
def splitNl : List Char → List (List Char)
  | [] => [[]]
  | c :: cs =>
    if c = '\n' then [] :: splitNl cs
    else
      match splitNl cs with
      | [] => [[c]]
      | h :: t => (c :: h) :: t

/-- Drop one trailing `'\r'` (`bufio.ScanLines`'s `dropCR`). -/
def dropCRChars (l : List Char) : List Char :=
  if l.getLast? = some '\r' then l.dropLast else l

/-- Go `bufio.Scanner` with `ScanLines`: split on `'\n'`, drop one trailing
`'\r'` per line, no empty final token after a terminating `'\n'`. -/
def splitLines (s : String) : List String :=
  if s.data.isEmpty then []
  else
    let parts := splitNl s.data
    ((if s.data.getLast? = some '\n' then parts.dropLast else parts).map
      (fun l => String.mk (dropCRChars l)))

/-- `ovf.EditRawOvf`: validate the whole input, then run the line scan. -/
def editRawOvf (opts : EditOptions) (s : String) : Except EditErr String :=
  if validate s then runLoop opts (splitLines s) else .error .malformed

/-- Does this line open an element of a kind the registry has proposals for
(the condition under which `processNextToken` leaves the verbatim path)? -/
def matchesRegistry (opts : EditOptions) (line : String) : Bool :=
  match isStartElement line with
  | none => false
  | some n =>
    (localName n == systemFieldName && !opts.onSystem.isEmpty) ||
      (localName n == itemFieldName && !opts.onHardwareItems.isEmpty)

/-- The number of lines of `s` that open an `Item` element. -/
def countItemStarts (s : String) : Nat :=
  ((splitLines s).filter
    (fun l => (isStartElement l).map localName == some itemFieldName)).length

/-- The byte string of an LF-terminated document with the given lines:
every line followed by one `'\n'`. -/
def emitLines (ls : List String) : String :=
  ls.foldr (fun l acc => l ++ "\n" ++ acc) ""

/-- Did the driver fail with the unknown-`EditAction` error
(`processNextToken`'s `default` switch branch)? -/
def isUnknownActionErr : Except EditErr String → Bool
  | .error .unknownAction => true
  | _ => false

/-! ## Helper lemmas -/

theorem emitLines_cons (l : String) (ls : List String) :
    emitLines (l :: ls) = l ++ "\n" ++ emitLines ls := rfl

theorem emitLines_append (a b : List String) :
    emitLines (a ++ b) = emitLines a ++ emitLines b := by
  induction a with
  | nil => simp [emitLines]
  | cons l ls ih =>
    simp only [List.cons_append, emitLines_cons, ih, String.append_assoc]

/-- The captured bytes followed by one terminator are exactly the consumed
lines, each followed by one terminator. -/
theorem foldl_eol_emitLines (first : String) (ls : List String) :
    ls.foldl (fun acc l => acc ++ "\n" ++ l) first ++ "\n"
      = emitLines (first :: ls) := by
  induction ls generalizing first with
  | nil => simp [emitLines]
  | cons c cs ih =>
    simp only [List.foldl_cons, emitLines_cons]
    rw [ih (first ++ "\n" ++ c), emitLines_cons]
    simp only [String.append_assoc]

theorem findScan_split (tgt : String) (ls : List String) :
    (findScan tgt ls).1 ++ (findScan tgt ls).2.1 = ls := by
  induction ls with
  | nil => simp [findScan]
  | cons l ls ih =>
    by_cases h : isMatchingEnd tgt l
    · simp [findScan, h]
    · simp only [findScan, h, Bool.false_eq_true, if_false, List.cons_append,
        List.cons.injEq, true_and]
      exact ih

theorem findScan_rem_length (tgt : String) (ls : List String) :
    (findScan tgt ls).2.1.length ≤ ls.length := by
  conv_rhs => rw [← findScan_split tgt ls]
  simp

/-- When no line matches, the scan consumes the whole input. -/
theorem findScan_no_match (tgt : String) (ls : List String)
    (h : ∀ l ∈ ls, isMatchingEnd tgt l = false) :
    findScan tgt ls = (ls, [], false) := by
  induction ls with
  | nil => simp [findScan]
  | cons l ls ih =>
    have hl := h l (by simp)
    simp only [findScan, hl, Bool.false_eq_true, if_false]
    rw [ih fun x hx => h x (by simp [hx])]

/-- The scan stops at the first matching line: if none of `pre` matches and
`m` matches, exactly `pre ++ [m]` is consumed. -/
theorem findScan_first_match (tgt m : String) (pre post : List String)
    (hpre : ∀ l ∈ pre, isMatchingEnd tgt l = false)
    (hm : isMatchingEnd tgt m = true) :
    findScan tgt (pre ++ m :: post) = (pre ++ [m], post, true) := by
  induction pre with
  | nil => simp [findScan, hm]
  | cons l ls ih =>
    have hl := hpre l (by simp)
    simp only [List.cons_append, findScan, hl, Bool.false_eq_true, if_false]
    have := ih fun x hx => hpre x (by simp [hx])
    rw [show ls.append (m :: post) = ls ++ m :: post from rfl, this]

theorem editItem_ok_rem {eol tgt firstLine : String} {rest : List String}
    {props : List ItemProp} {r : String} {a : EditAction}
    {ps' : List ItemProp} {rem : List String}
    (h : editItem eol tgt firstLine rest props = .ok (r, a, ps', rem)) :
    rem = (findScan tgt rest).2.1 := by
  unfold editItem findObject at h
  by_cases hv : validate (findObjectCapture eol tgt firstLine rest).1.data
  · simp only [hv, if_true] at h
    cases hdec : decodeItem (findObjectCapture eol tgt firstLine rest).1.data with
    | none => rw [hdec] at h; simp at h
    | some item =>
      rw [hdec] at h
      simp only [Except.ok.injEq, Prod.mk.injEq] at h
      exact h.2.2.2.symm
  · simp [hv] at h

theorem editSystem_ok_rem {eol tgt firstLine : String} {rest : List String}
    {props : List SysProp} {r : String} {a : EditAction}
    {ps' : List SysProp} {rem : List String}
    (h : editSystem eol tgt firstLine rest props = .ok (r, a, ps', rem)) :
    rem = (findScan tgt rest).2.1 := by
  unfold editSystem findObject at h
  by_cases hv : validate (findObjectCapture eol tgt firstLine rest).1.data
  · simp only [hv, if_true] at h
    cases hdec : decodeSystem (findObjectCapture eol tgt firstLine rest).1.data with
    | none => rw [hdec] at h; simp at h
    | some sys =>
      rw [hdec] at h
      simp only [Except.ok.injEq, Prod.mk.injEq] at h
      exact h.2.2.2.symm
  · simp [hv] at h

theorem noOp_ne_delete : noOpAction ≠ deleteAction := by decide

theorem noOp_ne_replace : noOpAction ≠ replaceAction := by decide

theorem replace_ne_delete : replaceAction ≠ deleteAction := by decide

/-- When every proposal answers `NoOp` on this record, the loop returns the
captured bytes with `NoOp`, leaving each proposal's step function in place. -/
theorem evalItemProps_keep (raw : RawObject) (item : Item)
    (ps : List ItemProp)
    (h : ∀ p ∈ ps, ((p.step item p.state).1).editAction = noOpAction) :
    (evalItemProps raw item ps).1 = raw.data
      ∧ (evalItemProps raw item ps).2.1 = noOpAction := by
  induction ps with
  | nil => exact ⟨rfl, rfl⟩
  | cons p ps ih =>
    have hp := h p (by simp)
    simp only [evalItemProps, hp, noOp_ne_delete, noOp_ne_replace, if_false]
    exact ih fun q hq => h q (by simp [hq])

theorem evalSysProps_keep (raw : RawObject) (sys : System)
    (ps : List SysProp)
    (h : ∀ p ∈ ps, ((p.step sys p.state).1).editAction = noOpAction) :
    (evalSysProps raw sys ps).1 = raw.data
      ∧ (evalSysProps raw sys ps).2.1 = noOpAction := by
  induction ps with
  | nil => exact ⟨rfl, rfl⟩
  | cons p ps ih =>
    have hp := h p (by simp)
    simp only [evalSysProps, hp, noOp_ne_delete, noOp_ne_replace, if_false]
    exact ih fun q hq => h q (by simp [hq])

/-- The loop only updates proposal states; every returned proposal keeps the
step function of a registered proposal. -/
theorem evalItemProps_steps (raw : RawObject) (item : Item)
    (ps : List ItemProp) :
    ∀ p' ∈ (evalItemProps raw item ps).2.2, ∃ p ∈ ps, p'.step = p.step := by
  induction ps with
  | nil => simp [evalItemProps]
  | cons p ps ih =>
    intro p' hp'
    simp only [evalItemProps] at hp'
    by_cases hd : ((p.step item p.state).1).editAction = deleteAction
    · simp only [hd, if_true] at hp'
      rcases List.mem_cons.mp hp' with h | h
      · exact ⟨p, by simp, by rw [h]⟩
      · exact ⟨p', by simp [h], rfl⟩
    · by_cases hr : ((p.step item p.state).1).editAction = replaceAction
      · simp only [hd, if_false, hr, if_true] at hp'
        rcases List.mem_cons.mp hp' with h | h
        · exact ⟨p, by simp, by rw [h]⟩
        · exact ⟨p', by simp [h], rfl⟩
      · simp only [hd, if_false, hr] at hp'
        rcases List.mem_cons.mp hp' with h | h
        · exact ⟨p, by simp, by rw [h]⟩
        · obtain ⟨q, hq, hs⟩ := ih p' h
          exact ⟨q, by simp [hq], hs⟩

theorem evalSysProps_steps (raw : RawObject) (sys : System)
    (ps : List SysProp) :
    ∀ p' ∈ (evalSysProps raw sys ps).2.2, ∃ p ∈ ps, p'.step = p.step := by
  induction ps with
  | nil => simp [evalSysProps]
  | cons p ps ih =>
    intro p' hp'
    simp only [evalSysProps] at hp'
    by_cases hd : ((p.step sys p.state).1).editAction = deleteAction
    · simp only [hd, if_true] at hp'
      rcases List.mem_cons.mp hp' with h | h
      · exact ⟨p, by simp, by rw [h]⟩
      · exact ⟨p', by simp [h], rfl⟩
    · by_cases hr : ((p.step sys p.state).1).editAction = replaceAction
      · simp only [hd, if_false, hr, if_true] at hp'
        rcases List.mem_cons.mp hp' with h | h
        · exact ⟨p, by simp, by rw [h]⟩
        · exact ⟨p', by simp [h], rfl⟩
      · simp only [hd, if_false, hr] at hp'
        rcases List.mem_cons.mp hp' with h | h
        · exact ⟨p, by simp, by rw [h]⟩
        · obtain ⟨q, hq, hs⟩ := ih p' h
          exact ⟨q, by simp [hq], hs⟩

/-- The action the proposal loop reports is always one of the three
`EditAction` constants. -/
theorem evalItemProps_action (raw : RawObject) (item : Item)
    (ps : List ItemProp) :
    (evalItemProps raw item ps).2.1 = noOpAction
      ∨ (evalItemProps raw item ps).2.1 = deleteAction
      ∨ (evalItemProps raw item ps).2.1 = replaceAction := by
  induction ps with
  | nil => exact Or.inl rfl
  | cons p ps ih =>
    simp only [evalItemProps]
    by_cases hd : ((p.step item p.state).1).editAction = deleteAction
    · simp [hd]
    · by_cases hr : ((p.step item p.state).1).editAction = replaceAction
      · simp [hd, hr, replace_ne_delete]
      · simpa [hd, hr] using ih

theorem evalSysProps_action (raw : RawObject) (sys : System)
    (ps : List SysProp) :
    (evalSysProps raw sys ps).2.1 = noOpAction
      ∨ (evalSysProps raw sys ps).2.1 = deleteAction
      ∨ (evalSysProps raw sys ps).2.1 = replaceAction := by
  induction ps with
  | nil => exact Or.inl rfl
  | cons p ps ih =>
    simp only [evalSysProps]
    by_cases hd : ((p.step sys p.state).1).editAction = deleteAction
    · simp [hd]
    · by_cases hr : ((p.step sys p.state).1).editAction = replaceAction
      · simp [hd, hr, replace_ne_delete]
      · simpa [hd, hr] using ih

theorem findObjectCapture_data (eol tgt l : String) (rest : List String) :
    (findObjectCapture eol tgt l rest).1.data
      = (findScan tgt rest).1.foldl (fun acc x => acc ++ eol ++ x) l := rfl

theorem findObjectCapture_rem (eol tgt l : String) (rest : List String) :
    (findObjectCapture eol tgt l rest).2.1 = (findScan tgt rest).2.1 := rfl

theorem foldl_eol_length_ge (first : String) (ls : List String) :
    first.length ≤ (ls.foldl (fun acc l => acc ++ "\n" ++ l) first).length := by
  induction ls generalizing first with
  | nil => simp
  | cons c cs ih =>
    simp only [List.foldl_cons]
    calc first.length ≤ (first ++ "\n" ++ c).length := by
          simp only [String.length_append]
          omega
    _ ≤ _ := ih _

theorem length_pos_of_ne_empty {s : String} (h : s ≠ "") : 0 < s.length := by
  cases s with
  | mk data =>
    cases data with
    | nil => exact absurd rfl h
    | cons c cs => simp [String.length]

theorem isStartElement_ne_empty {line n : String}
    (h : isStartElement line = some n) : line ≠ "" := by
  intro he
  subst he
  have hnone : isStartElement "" = none := by decide
  rw [hnone] at h
  exact Option.noConfusion h

/-- Eliminate a successful `editItem` when every registered proposal always
answers `NoOp`: the action is `NoOp`, the emitted bytes are the captured
span, the remaining lines are the scan remainder, and the updated proposals
still always answer `NoOp`. -/
theorem editItem_keep_ok {tgt line : String} {rest : List String}
    {props : List ItemProp} {result : String} {a : EditAction}
    {ps' : List ItemProp} {rem : List String}
    (hkeep : ∀ p ∈ props, ∀ i s, ((p.step i s).1).editAction = noOpAction)
    (h : editItem "\n" tgt line rest props = .ok (result, a, ps', rem)) :
    result = (findObjectCapture "\n" tgt line rest).1.data
      ∧ a = noOpAction
      ∧ rem = (findScan tgt rest).2.1
      ∧ ∀ p' ∈ ps', ∀ i s, ((p'.step i s).1).editAction = noOpAction := by
  unfold editItem findObject at h
  by_cases hv : validate (findObjectCapture "\n" tgt line rest).1.data
  · simp only [hv, if_true] at h
    cases hdec : decodeItem (findObjectCapture "\n" tgt line rest).1.data with
    | none => rw [hdec] at h; simp at h
    | some item =>
      rw [hdec] at h
      simp only [Except.ok.injEq, Prod.mk.injEq] at h
      obtain ⟨hres, hact, hps, hrem⟩ := h
      have hk := evalItemProps_keep (findObjectCapture "\n" tgt line rest).1
        item props fun p hp => hkeep p hp item p.state
      refine ⟨by rw [← hres, hk.1], by rw [← hact, hk.2], by
        rw [← hrem, findObjectCapture_rem], ?_⟩
      intro p' hp' i s
      rw [← hps] at hp'
      obtain ⟨p, hp, hstep⟩ :=
        evalItemProps_steps (findObjectCapture "\n" tgt line rest).1 item props p' hp'
      rw [hstep]
      exact hkeep p hp i s
  · simp [hv] at h

/-- `editItem` only fails with the malformed-span or decode errors. -/
theorem editItem_error_elim {eol tgt line : String} {rest : List String}
    {props : List ItemProp} {e : EditErr}
    (h : editItem eol tgt line rest props = .error e) :
    e = .malformed ∨ e = .decodeFailed := by
  unfold editItem findObject at h
  by_cases hv : validate (findObjectCapture eol tgt line rest).1.data
  · simp only [hv, if_true] at h
    cases hdec : decodeItem (findObjectCapture eol tgt line rest).1.data with
    | none => rw [hdec] at h; simp at h; exact Or.inr h.symm
    | some item => rw [hdec] at h; simp at h
  · simp only [hv, if_false] at h
    simp at h
    exact Or.inl h.symm

theorem editSystem_error_elim {eol tgt line : String} {rest : List String}
    {props : List SysProp} {e : EditErr}
    (h : editSystem eol tgt line rest props = .error e) :
    e = .malformed ∨ e = .decodeFailed := by
  unfold editSystem findObject at h
  by_cases hv : validate (findObjectCapture eol tgt line rest).1.data
  · simp only [hv, if_true] at h
    cases hdec : decodeSystem (findObjectCapture eol tgt line rest).1.data with
    | none => rw [hdec] at h; simp at h; exact Or.inr h.symm
    | some sys => rw [hdec] at h; simp at h
  · simp only [hv, if_false] at h
    simp at h
    exact Or.inl h.symm

/-- A successful `editItem` reports one of the three `EditAction`
constants. -/
theorem editItem_ok_action {eol tgt line : String} {rest : List String}
    {props : List ItemProp} {result : String} {a : EditAction}
    {ps' : List ItemProp} {rem : List String}
    (h : editItem eol tgt line rest props = .ok (result, a, ps', rem)) :
    a = noOpAction ∨ a = deleteAction ∨ a = replaceAction := by
  unfold editItem findObject at h
  by_cases hv : validate (findObjectCapture eol tgt line rest).1.data
  · simp only [hv, if_true] at h
    cases hdec : decodeItem (findObjectCapture eol tgt line rest).1.data with
    | none => rw [hdec] at h; simp at h
    | some item =>
      rw [hdec] at h
      simp only [Except.ok.injEq, Prod.mk.injEq] at h
      rw [← h.2.1]
      exact evalItemProps_action _ item props
  · simp [hv] at h

theorem editSystem_ok_action {eol tgt line : String} {rest : List String}
    {props : List SysProp} {result : String} {a : EditAction}
    {ps' : List SysProp} {rem : List String}
    (h : editSystem eol tgt line rest props = .ok (result, a, ps', rem)) :
    a = noOpAction ∨ a = deleteAction ∨ a = replaceAction := by
  unfold editSystem findObject at h
  by_cases hv : validate (findObjectCapture eol tgt line rest).1.data
  · simp only [hv, if_true] at h
    cases hdec : decodeSystem (findObjectCapture eol tgt line rest).1.data with
    | none => rw [hdec] at h; simp at h
    | some sys =>
      rw [hdec] at h
      simp only [Except.ok.injEq, Prod.mk.injEq] at h
      rw [← h.2.1]
      exact evalSysProps_action _ sys props
  · simp [hv] at h

theorem editSystem_keep_ok {tgt line : String} {rest : List String}
    {props : List SysProp} {result : String} {a : EditAction}
    {ps' : List SysProp} {rem : List String}
    (hkeep : ∀ p ∈ props, ∀ sy s, ((p.step sy s).1).editAction = noOpAction)
    (h : editSystem "\n" tgt line rest props = .ok (result, a, ps', rem)) :
    result = (findObjectCapture "\n" tgt line rest).1.data
      ∧ a = noOpAction
      ∧ rem = (findScan tgt rest).2.1
      ∧ ∀ p' ∈ ps', ∀ sy s, ((p'.step sy s).1).editAction = noOpAction := by
  unfold editSystem findObject at h
  by_cases hv : validate (findObjectCapture "\n" tgt line rest).1.data
  · simp only [hv, if_true] at h
    cases hdec : decodeSystem (findObjectCapture "\n" tgt line rest).1.data with
    | none => rw [hdec] at h; simp at h
    | some sys =>
      rw [hdec] at h
      simp only [Except.ok.injEq, Prod.mk.injEq] at h
      obtain ⟨hres, hact, hps, hrem⟩ := h
      have hk := evalSysProps_keep (findObjectCapture "\n" tgt line rest).1
        sys props fun p hp => hkeep p hp sys p.state
      refine ⟨by rw [← hres, hk.1], by rw [← hact, hk.2], by
        rw [← hrem, findObjectCapture_rem], ?_⟩
      intro p' hp' sy s
      rw [← hps] at hp'
      obtain ⟨p, hp, hstep⟩ :=
        evalSysProps_steps (findObjectCapture "\n" tgt line rest).1 sys props p' hp'
      rw [hstep]
      exact hkeep p hp sy s
  · simp [hv] at h

/-- With a Keep-only registry a successful pass re-emits every line of the
input, each terminated by one LF: captured spans are written back verbatim
and pass-through lines are copied. -/
theorem runLoopF_keep :
    ∀ (f : Nat) (opts : EditOptions) (lines : List String) (out : String),
      lines.length ≤ f →
      (∀ p ∈ opts.onHardwareItems, ∀ i s, ((p.step i s).1).editAction = noOpAction) →
      (∀ p ∈ opts.onSystem, ∀ sy s, ((p.step sy s).1).editAction = noOpAction) →
      runLoopF f opts lines = .ok out →
      out = emitLines lines := by
  intro f
  induction f with
  | zero =>
    intro opts lines out hlen _ _ hrun
    have hnil : lines = [] := List.length_eq_zero.mp (Nat.le_zero.mp hlen)
    subst hnil
    simp only [runLoopF, Except.ok.injEq] at hrun
    simp [← hrun, emitLines]
  | succ f ih =>
    intro opts lines out hlen hI hS hrun
    cases lines with
    | nil =>
      simp only [runLoopF, Except.ok.injEq] at hrun
      simp [← hrun, emitLines]
    | cons line rest =>
      have hlen' : rest.length ≤ f := by simp at hlen; omega
      simp only [runLoopF] at hrun
      cases hse : isStartElement line with
      | none =>
        rw [hse] at hrun
        dsimp only at hrun
        cases hrec : runLoopF f opts rest with
        | error e => rw [hrec] at hrun; exact absurd hrun (by simp)
        | ok out' =>
          rw [hrec] at hrun
          simp only [Except.ok.injEq] at hrun
          rw [← hrun, ih opts rest out' hlen' hI hS hrec, emitLines_cons]
      | some n =>
        rw [hse] at hrun
        dsimp only at hrun
        by_cases hsys : localName n = systemFieldName ∧ opts.onSystem.isEmpty = false
        · rw [if_pos hsys] at hrun
          cases hes : editSystem "\n" (localName n) line rest opts.onSystem with
          | error e => rw [hes] at hrun; exact absurd hrun (by simp)
          | ok tup =>
            obtain ⟨result, a, ps', rem⟩ := tup
            rw [hes] at hrun
            obtain ⟨hres, hact, hrem, hps'⟩ := editSystem_keep_ok hS hes
            rw [hact] at hrun
            simp only [if_pos rfl, if_true] at hrun
            have hpos : 0 < result.length := by
              rw [hres, findObjectCapture_data]
              exact lt_of_lt_of_le
                (length_pos_of_ne_empty (isStartElement_ne_empty hse))
                (foldl_eol_length_ge _ _)
            cases hrec : runLoopF f { opts with onSystem := ps' } rem with
            | error e => rw [hrec] at hrun; exact absurd hrun (by simp)
            | ok out' =>
              rw [hrec] at hrun
              simp only [Except.ok.injEq] at hrun
              have hremlen : rem.length ≤ f := by
                rw [hrem]
                exact le_trans (findScan_rem_length _ _) hlen'
              have hout' := ih { opts with onSystem := ps' } rem out' hremlen hI hps' hrec
              rw [← hrun, if_pos hpos, hout', hres, findObjectCapture_data,
                foldl_eol_emitLines, ← emitLines_append]
              rw [hrem]
              exact congrArg emitLines
                (congrArg (List.cons line) (findScan_split (localName n) rest))
        · rw [if_neg hsys] at hrun
          by_cases hitem : localName n = itemFieldName ∧ opts.onHardwareItems.isEmpty = false
          · rw [if_pos hitem] at hrun
            cases hei : editItem "\n" (localName n) line rest opts.onHardwareItems with
            | error e => rw [hei] at hrun; exact absurd hrun (by simp)
            | ok tup =>
              obtain ⟨result, a, ps', rem⟩ := tup
              rw [hei] at hrun
              obtain ⟨hres, hact, hrem, hps'⟩ := editItem_keep_ok hI hei
              rw [hact] at hrun
              simp only [if_pos rfl, if_true] at hrun
              have hpos : 0 < result.length := by
                rw [hres, findObjectCapture_data]
                exact lt_of_lt_of_le
                  (length_pos_of_ne_empty (isStartElement_ne_empty hse))
                  (foldl_eol_length_ge _ _)
              cases hrec : runLoopF f { opts with onHardwareItems := ps' } rem with
              | error e => rw [hrec] at hrun; exact absurd hrun (by simp)
              | ok out' =>
                rw [hrec] at hrun
                simp only [Except.ok.injEq] at hrun
                have hremlen : rem.length ≤ f := by
                  rw [hrem]
                  exact le_trans (findScan_rem_length _ _) hlen'
                have hout' := ih { opts with onHardwareItems := ps' } rem out' hremlen hps' hS hrec
                rw [← hrun, if_pos hpos, hout', hres, findObjectCapture_data,
                  foldl_eol_emitLines, ← emitLines_append]
                rw [hrem]
                exact congrArg emitLines
                  (congrArg (List.cons line) (findScan_split (localName n) rest))
          · rw [if_neg hitem] at hrun
            cases hrec : runLoopF f opts rest with
            | error e => rw [hrec] at hrun; exact absurd hrun (by simp)
            | ok out' =>
              rw [hrec] at hrun
              simp only [Except.ok.injEq] at hrun
              rw [← hrun, ih opts rest out' hlen' hI hS hrec, emitLines_cons]



theorem delete_ne_noOp : deleteAction ≠ noOpAction := by decide

theorem replace_ne_noOp : replaceAction ≠ noOpAction := by decide

/-- Every successful pass output is a concatenation of chunks each followed
by one LF. -/
theorem runLoopF_emit :
    ∀ (f : Nat) (opts : EditOptions) (lines : List String) (out : String),
      runLoopF f opts lines = .ok out →
      ∃ ls, out = emitLines ls := by
  intro f
  induction f with
  | zero =>
    intro opts lines out hrun
    simp only [runLoopF, Except.ok.injEq] at hrun
    exact ⟨[], hrun.symm⟩
  | succ f ih =>
    intro opts lines out hrun
    cases lines with
    | nil =>
      simp only [runLoopF, Except.ok.injEq] at hrun
      exact ⟨[], hrun.symm⟩
    | cons line rest =>
      simp only [runLoopF] at hrun
      cases hse : isStartElement line with
      | none =>
        rw [hse] at hrun
        dsimp only at hrun
        cases hrec : runLoopF f opts rest with
        | error e => rw [hrec] at hrun; exact absurd hrun (by simp)
        | ok out' =>
          rw [hrec] at hrun
          simp only [Except.ok.injEq] at hrun
          obtain ⟨ls, hls⟩ := ih opts rest out' hrec
          exact ⟨line :: ls, by rw [← hrun, hls, emitLines_cons]⟩
      | some n =>
        rw [hse] at hrun
        dsimp only at hrun
        by_cases hsys : localName n = systemFieldName ∧ opts.onSystem.isEmpty = false
        · rw [if_pos hsys] at hrun
          cases hes : editSystem "\n" (localName n) line rest opts.onSystem with
          | error e => rw [hes] at hrun; exact absurd hrun (by simp)
          | ok tup =>
            obtain ⟨result, a, ps', rem⟩ := tup
            rw [hes] at hrun
            dsimp only at hrun
            rcases editSystem_ok_action hes with hact | hact | hact
            · rw [hact] at hrun
              simp only [if_pos rfl, if_true] at hrun
              cases hrec : runLoopF f { opts with onSystem := ps' } rem with
              | error e => rw [hrec] at hrun; exact absurd hrun (by simp)
              | ok out' =>
                rw [hrec] at hrun
                simp only [Except.ok.injEq] at hrun
                obtain ⟨ls, hls⟩ := ih _ rem out' hrec
                exact ⟨(if result.length > 0 then result else line) :: ls,
                  by rw [← hrun, hls, emitLines_cons]⟩
            · rw [hact] at hrun
              rw [if_neg delete_ne_noOp, if_pos rfl] at hrun
              exact ih _ rem out hrun
            · rw [hact] at hrun
              rw [if_neg replace_ne_noOp, if_neg replace_ne_delete] at hrun
              rw [if_pos rfl] at hrun
              cases hrec : runLoopF f { opts with onSystem := ps' } rem with
              | error e => rw [hrec] at hrun; exact absurd hrun (by simp)
              | ok out' =>
                rw [hrec] at hrun
                simp only [Except.ok.injEq] at hrun
                obtain ⟨ls, hls⟩ := ih _ rem out' hrec
                exact ⟨result :: ls, by rw [← hrun, hls, emitLines_cons]⟩
        · rw [if_neg hsys] at hrun
          by_cases hitem : localName n = itemFieldName ∧ opts.onHardwareItems.isEmpty = false
          · rw [if_pos hitem] at hrun
            cases hei : editItem "\n" (localName n) line rest opts.onHardwareItems with
            | error e => rw [hei] at hrun; exact absurd hrun (by simp)
            | ok tup =>
              obtain ⟨result, a, ps', rem⟩ := tup
              rw [hei] at hrun
              dsimp only at hrun
              rcases editItem_ok_action hei with hact | hact | hact
              · rw [hact] at hrun
                simp only [if_pos rfl, if_true] at hrun
                cases hrec : runLoopF f { opts with onHardwareItems := ps' } rem with
                | error e => rw [hrec] at hrun; exact absurd hrun (by simp)
                | ok out' =>
                  rw [hrec] at hrun
                  simp only [Except.ok.injEq] at hrun
                  obtain ⟨ls, hls⟩ := ih _ rem out' hrec
                  exact ⟨(if result.length > 0 then result else line) :: ls,
                    by rw [← hrun, hls, emitLines_cons]⟩
              · rw [hact] at hrun
                rw [if_neg delete_ne_noOp, if_pos rfl] at hrun
                exact ih _ rem out hrun
              · rw [hact] at hrun
                rw [if_neg replace_ne_noOp, if_neg replace_ne_delete] at hrun
                rw [if_pos rfl] at hrun
                cases hrec : runLoopF f { opts with onHardwareItems := ps' } rem with
                | error e => rw [hrec] at hrun; exact absurd hrun (by simp)
                | ok out' =>
                  rw [hrec] at hrun
                  simp only [Except.ok.injEq] at hrun
                  obtain ⟨ls, hls⟩ := ih _ rem out' hrec
                  exact ⟨result :: ls, by rw [← hrun, hls, emitLines_cons]⟩
          · rw [if_neg hitem] at hrun
            cases hrec : runLoopF f opts rest with
            | error e => rw [hrec] at hrun; exact absurd hrun (by simp)
            | ok out' =>
              rw [hrec] at hrun
              simp only [Except.ok.injEq] at hrun
              obtain ⟨ls, hls⟩ := ih opts rest out' hrec
              exact ⟨line :: ls, by rw [← hrun, hls, emitLines_cons]⟩



/-- The driver never produces the unknown-`EditAction` error: `editSystem`
and `editItem` only report the three action constants, and their errors are
the malformed or decode errors. -/
theorem runLoopF_no_unknown :
    ∀ (f : Nat) (opts : EditOptions) (lines : List String),
      isUnknownActionErr (runLoopF f opts lines) = false := by
  intro f
  induction f with
  | zero => intro opts lines; rfl
  | succ f ih =>
    intro opts lines
    cases lines with
    | nil => rfl
    | cons line rest =>
      simp only [runLoopF]
      cases hse : isStartElement line with
      | none =>
        dsimp only
        cases hrec : runLoopF f opts rest with
        | error e =>
          have := ih opts rest
          rw [hrec] at this
          exact this
        | ok out' => rfl
      | some n =>
        dsimp only
        by_cases hsys : localName n = systemFieldName ∧ opts.onSystem.isEmpty = false
        · rw [if_pos hsys]
          cases hes : editSystem "\n" (localName n) line rest opts.onSystem with
          | error e =>
            rcases editSystem_error_elim hes with he | he <;> rw [he] <;> rfl
          | ok tup =>
            obtain ⟨result, a, ps', rem⟩ := tup
            dsimp only
            rcases editSystem_ok_action hes with hact | hact | hact
            · rw [hact]
              simp only [if_pos rfl, if_true]
              cases hrec : runLoopF f { opts with onSystem := ps' } rem with
              | error e =>
                have := ih { opts with onSystem := ps' } rem
                rw [hrec] at this
                exact this
              | ok out' => rfl
            · rw [hact, if_neg delete_ne_noOp, if_pos rfl]
              exact ih _ rem
            · rw [hact, if_neg replace_ne_noOp, if_neg replace_ne_delete,
                if_pos rfl]
              cases hrec : runLoopF f { opts with onSystem := ps' } rem with
              | error e =>
                have := ih { opts with onSystem := ps' } rem
                rw [hrec] at this
                exact this
              | ok out' => rfl
        · rw [if_neg hsys]
          by_cases hitem : localName n = itemFieldName ∧ opts.onHardwareItems.isEmpty = false
          · rw [if_pos hitem]
            cases hei : editItem "\n" (localName n) line rest opts.onHardwareItems with
            | error e =>
              rcases editItem_error_elim hei with he | he <;> rw [he] <;> rfl
            | ok tup =>
              obtain ⟨result, a, ps', rem⟩ := tup
              dsimp only
              rcases editItem_ok_action hei with hact | hact | hact
              · rw [hact]
                simp only [if_pos rfl, if_true]
                cases hrec : runLoopF f { opts with onHardwareItems := ps' } rem with
                | error e =>
                  have := ih { opts with onHardwareItems := ps' } rem
                  rw [hrec] at this
                  exact this
                | ok out' => rfl
              · rw [hact, if_neg delete_ne_noOp, if_pos rfl]
                exact ih _ rem
              · rw [hact, if_neg replace_ne_noOp, if_neg replace_ne_delete,
                  if_pos rfl]
                cases hrec : runLoopF f { opts with onHardwareItems := ps' } rem with
                | error e =>
                  have := ih { opts with onHardwareItems := ps' } rem
                  rw [hrec] at this
                  exact this
                | ok out' => rfl
          · rw [if_neg hitem]
            cases hrec : runLoopF f opts rest with
            | error e =>
              have := ih opts rest
              rw [hrec] at this
              exact this
            | ok out' => rfl




/-- A line that does not open a registered element kind is copied verbatim
(with one LF) and the scan continues with the remaining lines. -/
theorem runLoop_cons_unmatched (opts : EditOptions) (line : String)
    (rest : List String) (hline : matchesRegistry opts line = false) :
    runLoop opts (line :: rest)
      = (runLoop opts rest).map (fun out => line ++ "\n" ++ out) := by
  show runLoopF (rest.length + 1) opts (line :: rest) = _
  unfold runLoop
  simp only [runLoopF]
  cases hse : isStartElement line with
  | none =>
    dsimp only
    cases hrec : runLoopF rest.length opts rest with
    | error e => rfl
    | ok out' => rfl
  | some n =>
    dsimp only
    rw [matchesRegistry, hse] at hline
    simp only [Bool.or_eq_false_iff, Bool.and_eq_false_iff] at hline
    have hsys : ¬ (localName n = systemFieldName ∧ opts.onSystem.isEmpty = false) := by
      rintro ⟨h1, h2⟩
      rcases hline.1 with h | h
      · exact absurd h1 (by simpa using h)
      · rw [Bool.not_eq_false'] at h
        rw [h] at h2
        exact Bool.noConfusion h2
    have hitem : ¬ (localName n = itemFieldName ∧ opts.onHardwareItems.isEmpty = false) := by
      rintro ⟨h1, h2⟩
      rcases hline.2 with h | h
      · exact absurd h1 (by simpa using h)
      · rw [Bool.not_eq_false'] at h
        rw [h] at h2
        exact Bool.noConfusion h2
    rw [if_neg hsys, if_neg hitem]
    cases hrec : runLoopF rest.length opts rest with
    | error e => rfl
    | ok out' => rfl

/-- A document none of whose lines opens a registered element kind passes
through unchanged: the output is every input line, LF-terminated. -/
theorem runLoop_all_unmatched (opts : EditOptions) (lines : List String)
    (hall : ∀ l ∈ lines, matchesRegistry opts l = false) :
    runLoop opts lines = .ok (emitLines lines) := by
  induction lines with
  | nil => rfl
  | cons l rest ih =>
    rw [runLoop_cons_unmatched opts l rest (hall l (by simp)),
      ih fun x hx => hall x (by simp [hx])]
    rfl




theorem findObjectCapture_found (eol tgt l : String) (rest : List String) :
    (findObjectCapture eol tgt l rest).2.2 = (findScan tgt rest).2.2 := rfl

/-- The capture loop's sequential writes produce the lines joined by the
terminator. -/
theorem foldl_eol_joinSep (eol : String) (first : String) (ls : List String) :
    ls.foldl (fun acc l => acc ++ eol ++ l) first = joinSep eol (first :: ls) := by
  induction ls generalizing first with
  | nil => rfl
  | cons c cs ih =>
    simp only [List.foldl_cons]
    rw [ih (first ++ eol ++ c)]
    cases cs with
    | nil => rfl
    | cons d ds => simp only [joinSep, String.append_assoc]

theorem strRep_append (c : Char) (m n : Nat) :
    strRep c m ++ strRep c n = strRep c (m + n) := by
  show String.mk (List.replicate m c ++ List.replicate n c) = _
  rw [← List.replicate_add]
  rfl

theorem elemLine_head (t v : String) : (elemLine t v).data.head? = some '<' := by
  show (("<" ++ t ++ ">" ++ escape v ++ "</" ++ t ++ ">")).data.head? = some '<'
  simp only [String.data_append]
  rfl

theorem mem_itemFieldLines {i : Item} {l : String} (h : l ∈ itemFieldLines i) :
    ∃ t v, l = elemLine t v := by
  unfold itemFieldLines optField at h
  split_ifs at h <;>
    simp only [List.mem_append, List.mem_cons, List.not_mem_nil, or_false,
      false_or, List.mem_singleton] at h <;>
    (repeat' first
      | (exact ⟨_, _, h⟩)
      | (rcases h with h | h))

/-- The opening-line indent concatenated with the relative body indent is
the space run of length `k + max(b - k, 0)` (natural subtraction). -/
theorem startEnd_relative (raw : RawObject) (k b : Nat)
    (hc : raw.indentChar = ' ') (hk : raw.initialIndentCount = k)
    (hb : raw.bodyIndentCount = b) :
    raw.startEndIndent ++ raw.relativeBodyIndent = strRep ' ' (k + (b - k)) := by
  unfold RawObject.startEndIndent RawObject.relativeBodyIndent
  rw [hc, hk, hb]
  by_cases hbk : b < k
  · rw [if_pos hbk, Nat.sub_eq_zero_of_le (le_of_lt hbk)]
    exact String.append_empty _
  · rw [if_neg hbk, strRep_append]

/-- The proposal loop short-circuits: with all of `ps` answering `NoOp` and
`p` answering `Delete` or `Replace`, the result over `ps ++ p :: qs` is
decided by `p`; the proposals in `qs` are returned untouched and do not
affect the output. -/
theorem evalItemProps_short_circuit
    (raw : RawObject) (item : Item) (ps qs : List ItemProp) (p : ItemProp)
    (hkeep : ∀ q ∈ ps, ((q.step item q.state).1).editAction = noOpAction)
    (hdec : ((p.step item p.state).1).editAction = deleteAction
          ∨ ((p.step item p.state).1).editAction = replaceAction) :
    (evalItemProps raw item (ps ++ p :: qs)).2.1
        = ((p.step item p.state).1).editAction
    ∧ (evalItemProps raw item (ps ++ p :: qs)).1
        = (evalItemProps raw item (ps ++ [p])).1
    ∧ ((evalItemProps raw item (ps ++ p :: qs)).2.2).drop (ps.length + 1) = qs := by
  induction ps with
  | nil =>
    rcases hdec with h | h
    · refine ⟨?_, ?_, ?_⟩ <;> simp [evalItemProps, h]
    · refine ⟨?_, ?_, ?_⟩ <;> simp [evalItemProps, h, replace_ne_delete]
  | cons q ps ih =>
    have hq := hkeep q (by simp)
    have ih' := ih fun x hx => hkeep x (by simp [hx])
    simp only [List.cons_append, evalItemProps, hq, noOp_ne_delete,
      noOp_ne_replace, if_false]
    refine ⟨ih'.1, ih'.2.1, ?_⟩
    simpa using ih'.2.2

/-- The `editSystem` proposal loop short-circuits in the same way as the
`editItem` loop. -/
theorem evalSysProps_short_circuit
    (raw : RawObject) (sys : System) (ps qs : List SysProp) (p : SysProp)
    (hkeep : ∀ q ∈ ps, ((q.step sys q.state).1).editAction = noOpAction)
    (hdec : ((p.step sys p.state).1).editAction = deleteAction
          ∨ ((p.step sys p.state).1).editAction = replaceAction) :
    (evalSysProps raw sys (ps ++ p :: qs)).2.1
        = ((p.step sys p.state).1).editAction
    ∧ (evalSysProps raw sys (ps ++ p :: qs)).1
        = (evalSysProps raw sys (ps ++ [p])).1
    ∧ ((evalSysProps raw sys (ps ++ p :: qs)).2.2).drop (ps.length + 1) = qs := by
  induction ps with
  | nil =>
    rcases hdec with h | h
    · refine ⟨?_, ?_, ?_⟩ <;> simp [evalSysProps, h]
    · refine ⟨?_, ?_, ?_⟩ <;> simp [evalSysProps, h, replace_ne_delete]
  | cons q ps ih =>
    have hq := hkeep q (by simp)
    have ih' := ih fun x hx => hkeep x (by simp [hx])
    simp only [List.cons_append, evalSysProps, hq, noOp_ne_delete,
      noOp_ne_replace, if_false]
    refine ⟨ih'.1, ih'.2.1, ?_⟩
    simpa using ih'.2.2

/-! ## Concrete inputs used to settle the claims -/

/-- Opening line of the outer `System` in `TestFindObjectEmbeddedObject`
(`xml_test.go`). -/
def embeddedFirstLine : String := "    <System>"

/-- The lines following the outer opening line in
`TestFindObjectEmbeddedObject`: a body, a nested `System` child, the nested
child's closing tag (index 9), and the outer closing tag (index 10). -/
def embeddedRest : List String :=
  ["        <ElementName>Virtual Hardware Family</ElementName>",
   "        <InstanceID>0</InstanceID>",
   "        <VirtualSystemIdentifier>centos7</VirtualSystemIdentifier>",
   "        <VirtualSystemType>junk</VirtualSystemType>",
   "        <System>",
   "            <ElementName>Virtual Hardware Family</ElementName>",
   "            <InstanceID>0</InstanceID>",
   "            <VirtualSystemIdentifier>centos7</VirtualSystemIdentifier>",
   "            <VirtualSystemType>junk</VirtualSystemType>",
   "        </System>",
   "    </System>"]

/-- A proposal that always answers `NoOp` and never touches its state. -/
def keepItemProp : ItemProp := ⟨fun _ s => (⟨noOpAction, defaultItem⟩, s), 0⟩

/-- A proposal that always answers `Delete`. -/
def deleteItemProp : ItemProp := ⟨fun _ s => (⟨deleteAction, defaultItem⟩, s), 0⟩

/-- A `System` proposal that always answers `NoOp`. -/
def keepSysProp : SysProp := ⟨fun _ s => (⟨noOpAction, defaultSystem⟩, s), 0⟩

/-- A `System` proposal that always answers `Delete`. -/
def deleteSysProp : SysProp := ⟨fun _ s => (⟨deleteAction, defaultSystem⟩, s), 0⟩

/-- A registry with no proposals at all. -/
def passOpts : EditOptions := ⟨[], []⟩

/-- A registry whose single proposal always answers `NoOp`. -/
def keepOnlyOpts : EditOptions := ⟨[], [keepItemProp]⟩

/-- A capture stub for exercising the proposal loop directly. -/
def rawStub : RawObject := ⟨"<Item></Item>", 0, 0, ' '⟩

/-- One five-line `Item` block at the test document's indentation. -/
def mkItem (n id rt : String) : List String :=
  ["    <Item>",
   "      <rasd:ElementName>" ++ n ++ "</rasd:ElementName>",
   "      <rasd:InstanceID>" ++ id ++ "</rasd:InstanceID>",
   "      <rasd:ResourceType>" ++ rt ++ "</rasd:ResourceType>",
   "    </Item>"]

/-- The C7 document: an `Item` named `ideController0` among five other
Items, one of which is named `ideController1` (lines 12-16 are the
`ideController0` block). -/
def c7doc : List String :=
  ["<Envelope>", "  <VirtualHardwareSection>"] ++
  mkItem "cpu" "1" "3" ++ mkItem "memory" "2" "4" ++
  mkItem "ideController0" "3" "5" ++ mkItem "ideController1" "4" "5" ++
  mkItem "sataController0" "5" "20" ++ mkItem "disk1" "7" "17" ++
  ["  </VirtualHardwareSection>", "</Envelope>"]

/-- The C7 registry: delete up to one `Item` whose element name starts with
`ideController` (`DeleteHardwareItemsMatchingFunc "ideController" 1`). -/
def c7opts : EditOptions :=
  ⟨[], [deleteHardwareItemsMatchingProp "ideController" 1]⟩

/-- An `Item` whose element name matches the `ideController` deletion. -/
def ideItem : Item := { elementName := "ideController0" }

def delProp : ItemProp := deleteHardwareItemsMatchingProp "ideController" 1

/-- A capture at outer indent 4 and body indent 8 (spaces). -/
def rawIndent : RawObject := ⟨"", 4, 8, ' '⟩

/-- A fixed replacement item. -/
def sampleItem : Item :=
  { caption := "SATA Controller", description := "SATAController",
    elementName := "SATAController1", instanceID := "3",
    resourceSubType := "vmware.sata.ahci", resourceType := "20" }

/-- A proposal replacing any record with `sampleItem`. -/
def replaceNowProp : ItemProp := ⟨fun _ s => (⟨replaceAction, sampleItem⟩, s), 0⟩

/-! ## Claims -/

/-- **C1.** For every line-based input whose cursor is positioned on the
opening line of a named element, the capture loop of `FindObject` spans from
the opening line through the first subsequently encountered closing-tag line
whose local name equals the element's name (`pre` all non-matching, `m`
matching): the captured bytes are exactly those lines joined with the
terminator, the scan stops there (remaining lines are `post`), and a close
is reported.  In particular a nested child with the same local name
terminates the capture, truncating the outer element (see the witness on the
embedded-object test document; `FindObject` then validates these same
captured bytes without altering them). -/
theorem findObject_capture_stops_at_first_local_close
    (eol tgt firstLine m : String) (pre post : List String)
    (hpre : ∀ l ∈ pre, isMatchingEnd tgt l = false)
    (hm : isMatchingEnd tgt m = true) :
    (findObjectCapture eol tgt firstLine (pre ++ m :: post)).1.data
      = joinSep eol (firstLine :: (pre ++ [m]))
    ∧ (findObjectCapture eol tgt firstLine (pre ++ m :: post)).2.1 = post
    ∧ (findObjectCapture eol tgt firstLine (pre ++ m :: post)).2.2 = true := by
  have h := findScan_first_match tgt m pre post hpre hm
  refine ⟨?_, ?_, ?_⟩
  · rw [findObjectCapture_data, h, foldl_eol_joinSep]
  · rw [findObjectCapture_rem, h]
  · rw [findObjectCapture_found, h]

/-- Witness for C1: on the embedded-object document the capture stops at the
nested `</System>` (line 9), excluding the outer closing tag. -/
theorem findObject_capture_truncates_nested_system :
    (findObjectCapture "\n" "System" embeddedFirstLine
        (embeddedRest.take 9 ++ "        </System>" :: ["    </System>"])).1.data
      = joinSep "\n" (embeddedFirstLine :: (embeddedRest.take 9 ++ ["        </System>"])) :=
  (findObject_capture_stops_at_first_local_close "\n" "System" embeddedFirstLine
    "        </System>" (embeddedRest.take 9) ["    </System>"]
    (by decide) (by decide)).1

/-- **C2.** Both proposal loops — `editItem`'s over a decoded `Item` and
`editSystem`'s over a decoded `System` — evaluate proposals in registration
order: when the proposals `ps` (resp. `sps`) before `p` (resp. `sp`) all
answer `NoOp` and `p` (resp. `sp`) answers `Delete` or `Replace`, that
proposal determines the final action, the output does not depend on the
proposals after it (they are never invoked), and those later proposals are
returned untouched; when every proposal answers `NoOp` (or the list is
empty) the final action is `NoOp` and the captured bytes are emitted
unchanged, for either record kind. -/
theorem proposals_short_circuit_in_order
    (raw : RawObject) (item : Item) (sys : System)
    (ps qs : List ItemProp) (p : ItemProp)
    (sps sqs : List SysProp) (sp : SysProp)
    (hkeep : ∀ q ∈ ps, ((q.step item q.state).1).editAction = noOpAction)
    (hdec : ((p.step item p.state).1).editAction = deleteAction
          ∨ ((p.step item p.state).1).editAction = replaceAction)
    (hkeepS : ∀ q ∈ sps, ((q.step sys q.state).1).editAction = noOpAction)
    (hdecS : ((sp.step sys sp.state).1).editAction = deleteAction
          ∨ ((sp.step sys sp.state).1).editAction = replaceAction) :
    ((evalItemProps raw item (ps ++ p :: qs)).2.1
        = ((p.step item p.state).1).editAction
      ∧ (evalItemProps raw item (ps ++ p :: qs)).1
          = (evalItemProps raw item (ps ++ [p])).1
      ∧ ((evalItemProps raw item (ps ++ p :: qs)).2.2).drop (ps.length + 1) = qs
      ∧ ∀ rs : List ItemProp,
          (∀ q ∈ rs, ((q.step item q.state).1).editAction = noOpAction) →
          (evalItemProps raw item rs).2.1 = noOpAction
            ∧ (evalItemProps raw item rs).1 = raw.data)
    ∧ ((evalSysProps raw sys (sps ++ sp :: sqs)).2.1
        = ((sp.step sys sp.state).1).editAction
      ∧ (evalSysProps raw sys (sps ++ sp :: sqs)).1
          = (evalSysProps raw sys (sps ++ [sp])).1
      ∧ ((evalSysProps raw sys (sps ++ sp :: sqs)).2.2).drop (sps.length + 1) = sqs
      ∧ ∀ rs : List SysProp,
          (∀ q ∈ rs, ((q.step sys q.state).1).editAction = noOpAction) →
          (evalSysProps raw sys rs).2.1 = noOpAction
            ∧ (evalSysProps raw sys rs).1 = raw.data) := by
  have h := evalItemProps_short_circuit raw item ps qs p hkeep hdec
  have hs := evalSysProps_short_circuit raw sys sps sqs sp hkeepS hdecS
  exact ⟨⟨h.1, h.2.1, h.2.2, fun rs hrs =>
      ⟨(evalItemProps_keep raw item rs hrs).2,
       (evalItemProps_keep raw item rs hrs).1⟩⟩,
    ⟨hs.1, hs.2.1, hs.2.2, fun rs hrs =>
      ⟨(evalSysProps_keep raw sys rs hrs).2,
       (evalSysProps_keep raw sys rs hrs).1⟩⟩⟩

/-- Witness for C2, on both evaluators: one `Keep` proposal, then `Delete`,
then another proposal; the result is `Delete` and the all-`Keep` list
yields `NoOp`. -/
theorem proposals_short_circuit_example :
    ((evalItemProps rawStub defaultItem
        ([keepItemProp] ++ deleteItemProp :: [keepItemProp])).2.1
      = ((deleteItemProp.step defaultItem deleteItemProp.state).1).editAction
    ∧ (evalItemProps rawStub defaultItem [keepItemProp]).2.1 = noOpAction)
    ∧ ((evalSysProps rawStub defaultSystem
        ([keepSysProp] ++ deleteSysProp :: [keepSysProp])).2.1
      = ((deleteSysProp.step defaultSystem deleteSysProp.state).1).editAction
    ∧ (evalSysProps rawStub defaultSystem [keepSysProp]).2.1 = noOpAction) := by
  have h := proposals_short_circuit_in_order rawStub defaultItem defaultSystem
    [keepItemProp] [keepItemProp] deleteItemProp
    [keepSysProp] [keepSysProp] deleteSysProp
    (by intro q hq; simp only [List.mem_singleton] at hq; subst hq; rfl)
    (Or.inl rfl)
    (by intro q hq; simp only [List.mem_singleton] at hq; subst hq; rfl)
    (Or.inl rfl)
  exact ⟨⟨h.1.1, (h.1.2.2.2 [keepItemProp]
      (by intro q hq; simp only [List.mem_singleton] at hq; subst hq; rfl)).1⟩,
    ⟨h.2.1, (h.2.2.2.2 [keepSysProp]
      (by intro q hq; simp only [List.mem_singleton] at hq; subst hq; rfl)).1⟩⟩

/-- **C3.** Lines that do not open an element kind with registered proposals
pass through byte-for-byte: such a line is copied verbatim (followed by the
terminator) with the scan continuing on the remaining lines, and a document
in which no line matches the registry is reproduced in full. -/
theorem unmatched_lines_pass_through
    (opts : EditOptions) (line : String) (rest lines : List String)
    (hline : matchesRegistry opts line = false)
    (hall : ∀ l ∈ lines, matchesRegistry opts l = false) :
    runLoop opts (line :: rest)
      = (runLoop opts rest).map (fun out => line ++ "\n" ++ out)
    ∧ runLoop opts lines = .ok (emitLines lines) :=
  ⟨runLoop_cons_unmatched opts line rest hline,
   runLoop_all_unmatched opts lines hall⟩

/-- Witness for C3 at a concrete document and the empty registry. -/
theorem unmatched_lines_pass_through_example :
    runLoop passOpts ("<?xml version=\"1.0\"?>" :: ["<a>", "</a>"])
      = (runLoop passOpts ["<a>", "</a>"]).map
          (fun out => "<?xml version=\"1.0\"?>" ++ "\n" ++ out)
    ∧ runLoop passOpts ["<a>", "</a>"] = .ok (emitLines ["<a>", "</a>"]) :=
  unmatched_lines_pass_through passOpts "<?xml version=\"1.0\"?>"
    ["<a>", "</a>"] ["<a>", "</a>"] (by decide) (by decide)



/-- **C4, counterexample.**  The claim "Keep-only output is byte-identical
to the input for every well-formed document" fails: the well-formed document
`"<a/>"` (no trailing newline) gains a terminator, because the driver
unconditionally appends `'\n'` after every emitted line. -/
theorem keep_only_adds_trailing_newline :
    validate "<a/>" = true
    ∧ editRawOvf keepOnlyOpts "<a/>" = .ok "<a/>\n"
    ∧ "<a/>\n" ≠ "<a/>" :=
  ⟨by decide, by decide, by decide⟩

/-- **C4, amended.**  For every document given as its scanner lines, if the
pass succeeds under a registry whose every proposal always answers `NoOp`,
the output is the input lines each terminated by one LF — i.e. byte-identical
to an LF-terminated input document; the pass may instead fail (malformed or
undecodable captured span), and a final line without a terminator gains
one. -/
theorem keep_only_identity_on_success
    (opts : EditOptions) (lines : List String) (out : String)
    (hitems : ∀ p ∈ opts.onHardwareItems, ∀ i s,
      ((p.step i s).1).editAction = noOpAction)
    (hsys : ∀ p ∈ opts.onSystem, ∀ sy s,
      ((p.step sy s).1).editAction = noOpAction)
    (hrun : runLoop opts lines = .ok out) :
    out = emitLines lines :=
  runLoopF_keep lines.length opts lines out le_rfl hitems hsys hrun

/-- Witness for the amended C4. -/
theorem keep_only_identity_example :
    "<a>\n</a>\n" = emitLines ["<a>", "</a>"] :=
  keep_only_identity_on_success keepOnlyOpts ["<a>", "</a>"] "<a>\n</a>\n"
    (by intro p hp i s; simp only [keepOnlyOpts, List.mem_singleton] at hp;
        subst hp; rfl)
    (by intro p hp; simp [keepOnlyOpts] at hp)
    (by decide)

/-- **C5.** A `Replace` decided by the proposal loop serializes the new
record with the captured indentation: when the capture's opening line is
indented by `k` spaces and its body by `b` spaces, the replacement's opening
and closing lines carry exactly `k` spaces and every body line carries
`k + (b - k)` spaces (natural subtraction, i.e. `k + max(b-k,0)`) followed
by text starting with `'<'`. -/
theorem replace_indentation_fidelity
    (raw : RawObject) (item : Item) (k b : Nat) (p : ItemProp)
    (hc : raw.indentChar = ' ') (hk : raw.initialIndentCount = k)
    (hb : raw.bodyIndentCount = b)
    (hrep : ((p.step item p.state).1).editAction = replaceAction) :
    (evalItemProps raw item [p]).1
      = joinSep "\n"
          ((strRep ' ' k ++ "<Item>")
            :: ((itemFieldLines ((p.step item p.state).1).newItem).map
                  (fun l => strRep ' ' (k + (b - k)) ++ l)
              ++ [strRep ' ' k ++ "</Item>"]))
    ∧ ∀ l ∈ itemFieldLines ((p.step item p.state).1).newItem,
        l.data.head? = some '<' := by
  constructor
  · simp only [evalItemProps, hrep, replace_ne_delete, if_false, if_pos rfl,
      if_true]
    unfold marshalItem marshalItemLines
    have hse : raw.startEndIndent = strRep ' ' k := by
      unfold RawObject.startEndIndent
      rw [hc, hk]
    have hrel := startEnd_relative raw k b hc hk hb
    simp only [hrel]
    simp only [hse]
  · intro l hl
    obtain ⟨t, v, rfl⟩ := mem_itemFieldLines hl
    exact elemLine_head t v

/-- Witness for C5 at outer indent 4 and body indent 8. -/
theorem replace_indentation_example :
    (evalItemProps rawIndent defaultItem [replaceNowProp]).1
      = joinSep "\n"
          ((strRep ' ' 4 ++ "<Item>")
            :: ((itemFieldLines
                  ((replaceNowProp.step defaultItem replaceNowProp.state).1).newItem).map
                  (fun l => strRep ' ' (4 + (8 - 4)) ++ l)
              ++ [strRep ' ' 4 ++ "</Item>"])) :=
  (replace_indentation_fidelity rawIndent defaultItem 4 8 replaceNowProp
    rfl rfl rfl rfl).1

/-- **C6, counterexample.** The claim "the driver detects the document's
terminator style and emits it, so CRLF input yields CRLF output" fails: on a
CRLF document the scanner strips each CR and the driver emits a bare LF
after every line, so no CR appears in the output. -/
theorem crlf_input_yields_lf_output :
    editRawOvf passOpts "<a>\r\n</a>\r\n" = .ok "<a>\n</a>\n"
    ∧ "<a>\n</a>\n" ≠ "<a>\r\n</a>\r\n"
    ∧ ("<a>\n</a>\n").data.contains '\r' = false :=
  ⟨by decide, by decide, by decide⟩

/-- **C6, amended.** The driver performs no terminator detection: every
emitted line is terminated with the hardcoded `'\n'` (a CRLF document is
normalized to LF), and every successful output is a concatenation of
LF-terminated chunks. -/
theorem lf_hardcoded_terminator :
    editRawOvf passOpts "<a>\r\n</a>\r\n" = .ok "<a>\n</a>\n"
    ∧ ∀ (f : Nat) (opts : EditOptions) (lines : List String) (out : String),
        runLoopF f opts lines = .ok out → ∃ ls, out = emitLines ls :=
  ⟨by decide, runLoopF_emit⟩

/-- Witness for the amended C6. -/
theorem lf_terminator_example : ∃ ls, "<a>\n</a>\n" = emitLines ls :=
  lf_hardcoded_terminator.2 2 passOpts ["<a>", "</a>"] "<a>\n</a>\n" (by decide)



set_option maxRecDepth 20000

/-- **C7, counterexample.**  On a document with `ideController0` among five
other Items (one of them `ideController1`), deleting up to one item whose
element name starts with `ideController` removes only the `ideController0`
block (lines 12-16): the output retains **5** Items, not the 4 the claim
states. -/
theorem delete_scenario_not_four_items :
    editRawOvf c7opts (emitLines c7doc)
      = .ok (emitLines (c7doc.take 12 ++ c7doc.drop 17))
    ∧ countItemStarts (emitLines (c7doc.take 12 ++ c7doc.drop 17)) = 5
    ∧ (5 : Nat) ≠ 4 :=
  ⟨by decide, by decide, by decide⟩

/-- **C7, amended.**  The same scenario yields exactly **5** remaining
Items: the output is byte-for-byte the input minus the five lines of the
`ideController0` block, so `ideController1` and every other Item are
untouched and the deleted block (and its terminators) is omitted
entirely. -/
theorem delete_scenario_five_items :
    editRawOvf c7opts (emitLines c7doc)
      = .ok (emitLines (c7doc.take 12 ++ c7doc.drop 17))
    ∧ countItemStarts (emitLines c7doc) = 6
    ∧ countItemStarts (emitLines (c7doc.take 12 ++ c7doc.drop 17)) = 5 :=
  ⟨by decide, by decide, by decide⟩

/-- **C8, counterexample.**  The delete-up-to-N proposal is not a pure
function of the record: the closure built by
`DeleteHardwareItemsMatchingFunc "ideController" 1` answers `Delete` on the
first invocation and `NoOp` on a second invocation **on the same record**,
because the captured limit was decremented. -/
theorem delete_proposal_state_dependent :
    ((delProp.step ideItem delProp.state).1).editAction = deleteAction
    ∧ ((delProp.step ideItem
          ((delProp.step ideItem delProp.state).2)).1).editAction = noOpAction
    ∧ deleteAction ≠ noOpAction :=
  ⟨by decide, by decide, by decide⟩

/-- **C8, amended.**  The library's replace/modify/set proposals are pure —
their result is independent of the mutable state and they never change it —
while the proposal built by `DeleteHardwareItemsMatchingFunc` is a function
of the record *and* the remaining limit: it answers `Delete` exactly when
the limit is nonzero and the element-name match succeeds, decrementing the
limit in that case and preserving it otherwise. -/
theorem library_proposal_purity :
    (∀ (en : String) (it i : Item) (s : Int),
        ((replaceHardwareItemProp en it).step i s).2 = s
        ∧ ((replaceHardwareItemProp en it).step i s).1
            = ((replaceHardwareItemProp en it).step i 0).1)
    ∧ (∀ (rt : String) (f : Item → Item) (i : Item) (s : Int),
        ((modifyResourceTypeProp rt f).step i s).2 = s
        ∧ ((modifyResourceTypeProp rt f).step i s).1
            = ((modifyResourceTypeProp rt f).step i 0).1)
    ∧ (∀ (v : String) (sy : System) (s : Int),
        ((setVirtualSystemTypeProp v).step sy s).2 = s
        ∧ ((setVirtualSystemTypeProp v).step sy s).1
            = ((setVirtualSystemTypeProp v).step sy 0).1)
    ∧ (∀ (pre : String) (lim : Int) (i : Item) (s : Int),
        (((deleteHardwareItemsMatchingProp pre lim).step i s).1).editAction
            = (if s ≠ 0 ∧ pre.data.isPrefixOf i.elementName.data
               then deleteAction else noOpAction)
        ∧ ((deleteHardwareItemsMatchingProp pre lim).step i s).2
            = (if s ≠ 0 ∧ pre.data.isPrefixOf i.elementName.data
               then s - 1 else s)) := by
  refine ⟨fun en it i s => ⟨rfl, rfl⟩, fun rt f i s => ⟨rfl, rfl⟩,
    fun v sy s => ⟨rfl, rfl⟩, fun pre lim i s => ?_⟩
  unfold deleteHardwareItemsMatchingProp deleteMatchingResult
  by_cases hs : s = 0
  · subst hs
    simp
  · by_cases hp : pre.data.isPrefixOf i.elementName.data
    · simp [hs, hp]
    · simp [hs, hp, noOp_ne_delete]

/-- **C9, counterexample.**  "`FindObject` returns an error whenever the
scan reaches end of input without encountering a matching closing-tag line"
fails: with the opening element closed on its own opening line, no
subsequent line is a matching close, yet the captured bytes validate and
`FindObject` succeeds. -/
theorem findObject_eof_without_close_succeeds :
    isMatchingEnd "Item" "<b></b>" = false
    ∧ (findObject "\n" "Item" "<Item>x</Item>" ["<b></b>"]).isOk = true :=
  ⟨by decide, by decide⟩

/-- **C9, amended.**  When no subsequent line is a matching closing tag the
scan consumes the entire remaining input without reporting a close, and
`FindObject` returns the malformed-document error **iff** the accumulated
bytes fail validation — in particular a span whose opening element stays
unclosed errors (see witness), while a self-contained capture is returned as
success. -/
theorem findObject_eof_error_iff_invalid
    (eol tgt firstLine : String) (rest : List String)
    (hnone : ∀ l ∈ rest, isMatchingEnd tgt l = false) :
    (findObjectCapture eol tgt firstLine rest).2.2 = false
    ∧ (findObjectCapture eol tgt firstLine rest).1.data
        = rest.foldl (fun acc l => acc ++ eol ++ l) firstLine
    ∧ (findObject eol tgt firstLine rest = .error .malformed
        ↔ validate ((findObjectCapture eol tgt firstLine rest).1.data) = false) := by
  have h := findScan_no_match tgt rest hnone
  refine ⟨by rw [findObjectCapture_found, h], by rw [findObjectCapture_data, h], ?_⟩
  unfold findObject
  by_cases hv : validate (findObjectCapture eol tgt firstLine rest).1.data
  · simp [hv]
  · simp [hv]

/-- Witness for the amended C9: an unclosed `<Item>` followed by `<x>` hits
end of input and errors. -/
theorem findObject_eof_error_example :
    (findObjectCapture "\n" "Item" "<Item>" ["<x>"]).2.2 = false
    ∧ (findObjectCapture "\n" "Item" "<Item>" ["<x>"]).1.data
        = ["<x>"].foldl (fun acc l => acc ++ "\n" ++ l) "<Item>"
    ∧ (findObject "\n" "Item" "<Item>" ["<x>"] = .error .malformed
        ↔ validate ((findObjectCapture "\n" "Item" "<Item>" ["<x>"]).1.data) = false) :=
  findObject_eof_error_iff_invalid "\n" "Item" "<Item>" ["<x>"] (by decide)

/-- **C10.** The unknown-`EditAction` branch of `processNextToken` is
unreachable: the proposal loops of `editItem` and `editSystem` only ever
report `NoOp`, `Delete` or `Replace`, and consequently the driver never
returns the unknown-action error, for any fuel, registry and document. -/
theorem unknown_action_branch_unreachable :
    (∀ (raw : RawObject) (item : Item) (ps : List ItemProp),
        (evalItemProps raw item ps).2.1 = noOpAction
        ∨ (evalItemProps raw item ps).2.1 = deleteAction
        ∨ (evalItemProps raw item ps).2.1 = replaceAction)
    ∧ (∀ (raw : RawObject) (sys : System) (ps : List SysProp),
        (evalSysProps raw sys ps).2.1 = noOpAction
        ∨ (evalSysProps raw sys ps).2.1 = deleteAction
        ∨ (evalSysProps raw sys ps).2.1 = replaceAction)
    ∧ ∀ (f : Nat) (opts : EditOptions) (lines : List String),
        isUnknownActionErr (runLoopF f opts lines) = false :=
  ⟨evalItemProps_action, evalSysProps_action, runLoopF_no_unknown⟩


end Vmwareify
